import Mathlib

/-!
# KanjiStats: the character-set analysis engine of `main.go`

A Go `string` is modelled by the sequence of runes that `for _, r := range s`
yields, a `List Char` (`Char` is a Unicode scalar value).  For the strings the
engine works on, which are all built by `string(runeres)` from decoded runes or
come out of the JSON decoder, this is the UTF-8 content of the string itself:
`utf8.RuneCountInString` is the length of that list, `strings.ContainsRune` is
membership and `strings.Count(s, string(r))` is the number of occurrences of `r`.

`float32` results are modelled by `F32`: a finite value is kept as an exact
rational (rounding is not modelled), and the two exceptional outcomes of a
division by zero, NaN and +Inf, are kept apart from the finite values.
-/

namespace KanjiStats

/-- A Go string as the sequence of its runes. -/
abbrev GoString := List Char

/-- Go `strings.ContainsRune(s, r)`. -/
def containsRune (s : GoString) (r : Char) : Bool := s.contains r

/-- Go `utf8.RuneCountInString(s)`. -/
def runeCountInString (s : GoString) : Nat := s.length

/-- Go `strings.Count(s, string(r))` for a one-rune pattern. -/
def countRune (s : GoString) (r : Char) : Nat := s.count r

/-- The outcome of a `float32` computation on non-negative operands: not-a-number,
positive infinity, or a finite value kept exactly. -/
inductive F32 where
  | nan : F32
  | inf : F32
  | num (q : ℚ) : F32
  deriving DecidableEq

/-- The quotient `float32(a) / float32(b)` of two converted non-negative integers:
`0 / 0` is NaN and `a / 0` with `a > 0` is +Inf (a float division does not trap). -/
def f32div (a b : Nat) : F32 :=
  if b = 0 then (if a = 0 then F32.nan else F32.inf) else F32.num ((a : ℚ) / (b : ℚ))

/-- The product `x * 100` of a `float32` and the positive constant `100`. -/
def F32.times100 : F32 → F32
  | F32.nan => F32.nan
  | F32.inf => F32.inf
  | F32.num q => F32.num (q * 100)

/-- The range test of `readInputFiles`: `r > 0x4e00 && r < 0x9faf`. -/
def inKanjiRange (r : Char) : Bool := decide (r.toNat > 0x4e00) && decide (r.toNat < 0x9faf)

/-- The character class `[\u4E00-\u9FAF]` of the constant `REGEXP_CONTAIN_KANJI`, which
`containKanji` matches against: both ends of the range belong to it. -/
def regexpKanjiClass (r : Char) : Bool := decide (0x4E00 ≤ r.toNat) && decide (r.toNat ≤ 0x9FAF)

/-- The innermost loop of `readInputFiles`: the runes of one line that pass the range
test are appended to `runeres`. -/
def scanLine (runeres : List Char) (str : GoString) : List Char :=
  str.foldl (fun acc r => if inKanjiRange r then acc ++ [r] else acc) runeres

/-- The loop of `readInputFiles` over the lines of one file, on the two accumulators
`runeres` and `textlen`. -/
def scanFile (acc : List Char × Nat) (fileData : List GoString) : List Char × Nat :=
  fileData.foldl (fun st str => (scanLine st.1 str, st.2 + runeCountInString str)) acc

/-- Go `readInputFiles`, applied to the lines `readLines` returned for each path (a file
that cannot be read ends the run, which is outside this model). -/
def readInputFiles (files : List (List GoString)) : GoString × Nat :=
  files.foldl scanFile ([], 0)

/-- Go `uniqueKanjiInString`: a rune is appended to `runeres` when `runeres` does not
contain it yet. -/
def uniqueKanjiInString (arg : GoString) : GoString :=
  arg.foldl (fun runeres r => if !containsRune runeres r then runeres ++ [r] else runeres) []

/-- Go `kanjiDifference`: a rune of `s1` is appended to `runeres` when `s2` does not
contain it. -/
def kanjiDifference (s1 s2 : GoString) : GoString :=
  s1.foldl (fun runeres r => if !containsRune s2 r then runeres ++ [r] else runeres) []

/-- The integer `res` that the loop of `kanjiPercent` accumulates. -/
def kanjiPercentRes (s1 s2 : GoString) : Nat :=
  s1.foldl (fun res r => if containsRune s2 r then res + countRune s2 r else res) 0

/-- Go `kanjiPercent`: `float32(res) / all * 100` with `all` the rune count of `s2`. -/
def kanjiPercent (s1 s2 : GoString) : F32 :=
  (f32div (kanjiPercentRes s1 s2) (runeCountInString s2)).times100

/-- The density of `main`:
`float32(utf8.RuneCountInString(KanjiInText)) / float32(TextLength) * 100`. -/
def kanjiPercentageInTexts (kanjiInText : GoString) (textLength : Nat) : F32 :=
  (f32div (runeCountInString kanjiInText) textLength).times100

/-- The four strings that `main` computes with its chain of `kanjiDifference` calls. -/
structure Classification where
  UnknownKanji : GoString
  KanjiNotInWK : GoString
  UnknownKanjiInWK : GoString
  KnownKanji : GoString
  deriving DecidableEq

/-- The classifier chain of `main`, in the order of the source. -/
def classify (uniqKanjiInTexts kanjiFromWK allWKKanji : GoString) : Classification :=
  let unknownKanji := kanjiDifference uniqKanjiInTexts kanjiFromWK
  let kanjiNotInWK := kanjiDifference unknownKanji allWKKanji
  let unknownKanjiInWK := kanjiDifference unknownKanji kanjiNotInWK
  let knownKanji := kanjiDifference uniqKanjiInTexts unknownKanji
  { UnknownKanji := unknownKanji
    KanjiNotInWK := kanjiNotInWK
    UnknownKanjiInWK := unknownKanjiInWK
    KnownKanji := knownKanji }

/-- The first occurrences of a sequence, by structural recursion: the head is kept and
removed from the first occurrences of the tail.  It is only a proof device, shown
below to be what the loop of `uniqueKanjiInString` computes. -/
def firstOccurrences : List Char → List Char
  | [] => []
  | x :: xs => x :: (firstOccurrences xs).filter (fun c => c != x)

/-- The four sets by their direct definitions, as the specification words them:
`Known` is `textUnique` restricted to the characters in `learnerKnown`, `Unknown` to
those not in `learnerKnown`, `UnknownInCurriculum` to those not in `learnerKnown` and
in `curriculumAll`, `NotInCurriculum` to those in neither.  It is the reference that
the chain `classify` of the source is compared with. -/
def classifyDirect (textUnique learnerKnown curriculumAll : GoString) : Classification :=
  { UnknownKanji := textUnique.filter (fun c => !learnerKnown.contains c)
    KanjiNotInWK :=
      textUnique.filter (fun c => !learnerKnown.contains c && !curriculumAll.contains c)
    UnknownKanjiInWK :=
      textUnique.filter (fun c => !learnerKnown.contains c && curriculumAll.contains c)
    KnownKanji := textUnique.filter (fun c => learnerKnown.contains c) }

/-! ## The loops as list operations -/

theorem foldl_append_if (p : Char → Bool) (s acc : List Char) :
    s.foldl (fun runeres r => if p r then runeres ++ [r] else runeres) acc
      = acc ++ s.filter p := by
  induction s generalizing acc with
  | nil => simp
  | cons x xs ih =>
    simp only [List.foldl_cons, ih]
    by_cases hx : p x = true
    · simp [hx, List.filter_cons]
    · simp [hx, List.filter_cons]

theorem containsRune_iff (s : GoString) (r : Char) : containsRune s r = true ↔ r ∈ s := by
  simp [containsRune]

theorem kanjiDifference_eq_filter (s1 s2 : GoString) :
    kanjiDifference s1 s2 = s1.filter (fun r => !containsRune s2 r) := by
  unfold kanjiDifference
  rw [foldl_append_if (fun r => !containsRune s2 r) s1 []]
  simp

theorem mem_kanjiDifference (s1 s2 : GoString) (c : Char) :
    c ∈ kanjiDifference s1 s2 ↔ c ∈ s1 ∧ c ∉ s2 := by
  rw [kanjiDifference_eq_filter, List.mem_filter]
  simp [containsRune]

theorem nodup_kanjiDifference (s1 s2 : GoString) (h : s1.Nodup) :
    (kanjiDifference s1 s2).Nodup := by
  rw [kanjiDifference_eq_filter]
  exact h.filter _

theorem scanLine_eq (runeres : List Char) (str : GoString) :
    scanLine runeres str = runeres ++ str.filter inKanjiRange := by
  unfold scanLine
  exact foldl_append_if inKanjiRange str runeres

theorem readInputFiles_single_line (str : GoString) :
    readInputFiles [[str]] = (str.filter inKanjiRange, runeCountInString str) := by
  simp [readInputFiles, scanFile, scanLine_eq]

theorem uniqueKanjiInString_loop (s acc : List Char) :
    s.foldl (fun runeres r => if !containsRune runeres r then runeres ++ [r] else runeres) acc
      = acc ++ (firstOccurrences s).filter (fun c => !containsRune acc c) := by
  induction s generalizing acc with
  | nil => simp [firstOccurrences]
  | cons x xs ih =>
    simp only [List.foldl_cons, ih, firstOccurrences]
    by_cases hx : x ∈ acc
    · have hc : containsRune acc x = true := (containsRune_iff acc x).2 hx
      simp only [hc, Bool.not_true, Bool.false_eq_true, if_false, List.filter_cons,
        List.filter_filter]
      congr 1
      apply List.filter_congr
      intro c _
      by_cases hca : c ∈ acc
      · simp [containsRune, hca]
      · have : c ≠ x := fun h => hca (h ▸ hx)
        simp [containsRune, hca, this]
    · have hc : containsRune acc x = false := by
        simpa [containsRune] using hx
      simp only [hc, Bool.not_false, if_true, List.filter_cons, List.filter_filter,
        List.append_assoc, List.singleton_append]
      congr 2
      apply List.filter_congr
      intro c _
      simp only [containsRune, List.contains_eq_any_beq, List.any_append, List.any_cons,
        List.any_nil, Bool.or_false, Bool.not_or]
      by_cases hcx : c = x
      · simp [hcx]
      · have h1 : (x == c) = false := by simpa using fun h => hcx h.symm
        have h2 : (c != x) = true := by simpa using hcx
        simp [h1, h2]
        exact fun _ => hcx

theorem uniqueKanjiInString_eq (s : GoString) :
    uniqueKanjiInString s = firstOccurrences s := by
  unfold uniqueKanjiInString
  rw [uniqueKanjiInString_loop]
  simp [containsRune]

theorem mem_firstOccurrences (s : List Char) (c : Char) :
    c ∈ firstOccurrences s ↔ c ∈ s := by
  induction s with
  | nil => simp [firstOccurrences]
  | cons x xs ih =>
    simp only [firstOccurrences, List.mem_cons, List.mem_filter, ih]
    by_cases hcx : c = x
    · simp [hcx]
    · simp [hcx]

theorem nodup_firstOccurrences (s : List Char) : (firstOccurrences s).Nodup := by
  induction s with
  | nil => simp [firstOccurrences]
  | cons x xs ih =>
    simp only [firstOccurrences, List.nodup_cons]
    refine ⟨?_, ih.filter _⟩
    simp [List.mem_filter]

theorem sublist_firstOccurrences (s : List Char) : (firstOccurrences s).Sublist s := by
  induction s with
  | nil => simp [firstOccurrences]
  | cons x xs ih =>
    simp only [firstOccurrences]
    exact List.Sublist.cons₂ x ((List.filter_sublist _).trans ih)

theorem indexOf_filter_lt (p : Char → Bool) (l : List Char) (a b : Char)
    (pa : p a = true) (pb : p b = true) :
    ((l.filter p).indexOf a < (l.filter p).indexOf b ↔ l.indexOf a < l.indexOf b) := by
  induction l with
  | nil => simp
  | cons x xs ih =>
    by_cases hx : p x = true
    · rw [List.filter_cons_of_pos hx]
      by_cases hxa : x = a
      · by_cases hxb : x = b
        · simp [List.indexOf_cons_eq _ hxa, List.indexOf_cons_eq _ hxb]
        · simp [List.indexOf_cons_eq _ hxa, List.indexOf_cons_ne _ hxb]
      · by_cases hxb : x = b
        · simp [List.indexOf_cons_ne _ hxa, List.indexOf_cons_eq _ hxb]
        · simp [List.indexOf_cons_ne _ hxa, List.indexOf_cons_ne _ hxb, ih]
    · rw [List.filter_cons_of_neg hx]
      have hxa : x ≠ a := fun h => hx (h ▸ pa)
      have hxb : x ≠ b := fun h => hx (h ▸ pb)
      simp [List.indexOf_cons_ne _ hxa, List.indexOf_cons_ne _ hxb, ih]

theorem indexOf_firstOccurrences_lt (s : List Char) (a b : Char) :
    ((firstOccurrences s).indexOf a < (firstOccurrences s).indexOf b
      ↔ s.indexOf a < s.indexOf b) := by
  induction s with
  | nil => simp [firstOccurrences]
  | cons x xs ih =>
    simp only [firstOccurrences]
    by_cases hxa : x = a
    · by_cases hxb : x = b
      · simp [List.indexOf_cons_eq _ hxa, List.indexOf_cons_eq _ hxb]
      · simp [List.indexOf_cons_eq _ hxa, List.indexOf_cons_ne _ hxb]
    · by_cases hxb : x = b
      · simp [List.indexOf_cons_ne _ hxa, List.indexOf_cons_eq _ hxb]
      · have pa : (fun c => c != x) a = true := by
          simpa using fun h => hxa h.symm
        have pb : (fun c => c != x) b = true := by
          simpa using fun h => hxb h.symm
        simp only [List.indexOf_cons_ne _ hxa, List.indexOf_cons_ne _ hxb,
          Nat.succ_lt_succ_iff]
        rw [indexOf_filter_lt _ _ a b pa pb]
        exact ih

theorem kanjiPercentRes_loop (s1 s2 : GoString) (acc : Nat) :
    s1.foldl (fun res r => if containsRune s2 r then res + countRune s2 r else res) acc
      = acc + (s1.map (fun c => s2.count c)).sum := by
  induction s1 generalizing acc with
  | nil => simp
  | cons x xs ih =>
    simp only [List.foldl_cons, ih, List.map_cons, List.sum_cons]
    by_cases hx : x ∈ s2
    · simp [containsRune, countRune, hx, Nat.add_assoc]
    · simp [containsRune, hx, List.count_eq_zero_of_not_mem hx]

theorem kanjiPercentRes_eq_sum (s1 s2 : GoString) :
    kanjiPercentRes s1 s2 = (s1.map (fun c => s2.count c)).sum := by
  unfold kanjiPercentRes
  rw [kanjiPercentRes_loop]
  simp

theorem sum_filter_add_sum_filter_not (f : Char → Nat) (p : Char → Bool) (l : List Char) :
    ((l.filter p).map f).sum + ((l.filter (fun c => !p c)).map f).sum = (l.map f).sum := by
  induction l with
  | nil => simp
  | cons x xs ih =>
    by_cases hx : p x = true
    · simp [List.filter_cons, hx, ← ih]; omega
    · simp [List.filter_cons, hx, ← ih]; omega

theorem sum_count_of_nodup_of_mem (l text : List Char) (hl : l.Nodup)
    (hmem : ∀ c, c ∈ l ↔ c ∈ text) :
    (l.map (fun c => text.count c)).sum = text.length := by
  have hperm : l.Perm text.dedup :=
    (List.perm_ext_iff_of_nodup hl (List.nodup_dedup text)).2
      (fun c => by rw [hmem c, List.mem_dedup])
  rw [(hperm.map _).sum_eq]
  exact List.sum_map_count_dedup_eq_length text

theorem kanjiPercent_of_ne_nil (s1 s2 : GoString) (h : s2 ≠ []) :
    kanjiPercent s1 s2
      = F32.num (((kanjiPercentRes s1 s2 : Nat) : ℚ) / ((s2.length : Nat) : ℚ) * 100) := by
  have hlen : s2.length ≠ 0 := fun h0 => h (List.length_eq_zero.1 h0)
  simp [kanjiPercent, f32div, runeCountInString, hlen, F32.times100]

theorem known_eq_filter (textUnique learnerKnown : GoString) :
    kanjiDifference textUnique (kanjiDifference textUnique learnerKnown)
      = textUnique.filter (fun c => !(fun r => !containsRune learnerKnown r) c) := by
  rw [kanjiDifference_eq_filter]
  apply List.filter_congr
  intro c hc
  have h := mem_kanjiDifference textUnique learnerKnown c
  by_cases hk : c ∈ learnerKnown
  · have hn : c ∉ kanjiDifference textUnique learnerKnown := fun hm => (h.1 hm).2 hk
    simp [containsRune, hn, hk]
  · have hn : c ∈ kanjiDifference textUnique learnerKnown := h.2 ⟨hc, hk⟩
    simp [containsRune, hn, hk]

theorem kanjiPercentRes_split (textUnique other text : GoString) :
    kanjiPercentRes (kanjiDifference textUnique (kanjiDifference textUnique other)) text
        + kanjiPercentRes (kanjiDifference textUnique other) text
      = kanjiPercentRes textUnique text := by
  rw [known_eq_filter, kanjiPercentRes_eq_sum, kanjiPercentRes_eq_sum, kanjiPercentRes_eq_sum,
    kanjiDifference_eq_filter, Nat.add_comm]
  exact sum_filter_add_sum_filter_not (fun c => text.count c)
    (fun r => !containsRune other r) textUnique

theorem kanjiPercentRes_unique (text : GoString) :
    kanjiPercentRes (uniqueKanjiInString text) text = text.length := by
  rw [kanjiPercentRes_eq_sum, uniqueKanjiInString_eq]
  exact sum_count_of_nodup_of_mem _ text (nodup_firstOccurrences text)
    (mem_firstOccurrences text)

/-! ## The classifier chain partitions its input -/

/-- C1: with `textUnique = uniqueKanjiInString text`, `Unknown = kanjiDifference textUnique
learnerKnown` and `Known = kanjiDifference textUnique Unknown` as the chain computes them,
every character of `textUnique` is in exactly one of `Known` and `Unknown`, and every
character of `Known` or of `Unknown` is in `textUnique`. -/
theorem known_unknown_partition (text learnerKnown curriculumAll : GoString) (c : Char) :
    (c ∈ uniqueKanjiInString text →
        ((c ∈ (classify (uniqueKanjiInString text) learnerKnown curriculumAll).KnownKanji
            ∧ c ∉ (classify (uniqueKanjiInString text) learnerKnown curriculumAll).UnknownKanji)
          ∨ (c ∉ (classify (uniqueKanjiInString text) learnerKnown curriculumAll).KnownKanji
            ∧ c ∈ (classify (uniqueKanjiInString text) learnerKnown curriculumAll).UnknownKanji)))
    ∧ (c ∈ (classify (uniqueKanjiInString text) learnerKnown curriculumAll).KnownKanji →
        c ∈ uniqueKanjiInString text)
    ∧ (c ∈ (classify (uniqueKanjiInString text) learnerKnown curriculumAll).UnknownKanji →
        c ∈ uniqueKanjiInString text) := by
  simp only [classify, mem_kanjiDifference]
  tauto

/-- C2: with `NotInCurriculum = kanjiDifference Unknown curriculumAll` and
`UnknownInCurriculum = kanjiDifference Unknown NotInCurriculum`, every character of
`Unknown` is in exactly one of `UnknownInCurriculum` and `NotInCurriculum`, and both
contain only characters of `Unknown`. -/
theorem curriculum_partition (Unknown curriculumAll : GoString) (c : Char) :
    (c ∈ Unknown →
        ((c ∈ kanjiDifference Unknown (kanjiDifference Unknown curriculumAll)
            ∧ c ∉ kanjiDifference Unknown curriculumAll)
          ∨ (c ∉ kanjiDifference Unknown (kanjiDifference Unknown curriculumAll)
            ∧ c ∈ kanjiDifference Unknown curriculumAll)))
    ∧ (c ∈ kanjiDifference Unknown (kanjiDifference Unknown curriculumAll) → c ∈ Unknown)
    ∧ (c ∈ kanjiDifference Unknown curriculumAll → c ∈ Unknown) := by
  simp only [mem_kanjiDifference]
  tauto

/-- C1, at the scenario of the specification: `水` is a character of the text that the
learner does not know, and it lands in `Unknown` only. -/
theorem known_unknown_partition_witness :
    '水' ∉ (classify (uniqueKanjiInString ['木', '木', '水', '山']) ['木']
        ['木', '水', '火']).KnownKanji
      ∧ '水' ∈ (classify (uniqueKanjiInString ['木', '木', '水', '山']) ['木']
        ['木', '水', '火']).UnknownKanji :=
  ((known_unknown_partition ['木', '木', '水', '山'] ['木'] ['木', '水', '火'] '水').1
    (by decide)).resolve_left (fun h => absurd h.1 (by decide))

/-- C2, at the scenario of the specification: `山` is an unknown character outside the
curriculum, and it lands in `NotInCurriculum` only. -/
theorem curriculum_partition_witness :
    '山' ∉ kanjiDifference ['水', '山'] (kanjiDifference ['水', '山'] ['木', '水', '火'])
      ∧ '山' ∈ kanjiDifference ['水', '山'] ['木', '水', '火'] :=
  ((curriculum_partition ['水', '山'] ['木', '水', '火'] '山').1
    (by decide)).resolve_left (fun h => absurd h.1 (by decide))

/-! ## The range test of the extractor -/

/-- C3: on the one line made of U+4E00, U+9FAF, U+4DFF and U+9FB0, `readInputFiles`
returns no ideograph at all and the count 4: its range test is strict at both ends and
drops the two end points of the block, which the character class of
`REGEXP_CONTAIN_KANJI` includes. -/
theorem readInputFiles_drops_block_ends :
    readInputFiles [[[Char.ofNat 0x4E00, Char.ofNat 0x9FAF, Char.ofNat 0x4DFF,
        Char.ofNat 0x9FB0]]] = ([], 4)
      ∧ inKanjiRange (Char.ofNat 0x4E00) = false
      ∧ inKanjiRange (Char.ofNat 0x9FAF) = false
      ∧ regexpKanjiClass (Char.ofNat 0x4E00) = true
      ∧ regexpKanjiClass (Char.ofNat 0x9FAF) = true
      ∧ regexpKanjiClass (Char.ofNat 0x4DFF) = false
      ∧ regexpKanjiClass (Char.ofNat 0x9FB0) = false := by
  decide

/-! ## The set difference -/

/-- C4: a character occurs in `kanjiDifference A B` if and only if it occurs in `A` and
does not occur in `B`; and when `A` has no repeated character, neither has
`kanjiDifference A B`. -/
theorem kanjiDifference_spec (A B : GoString) (c : Char) :
    (c ∈ kanjiDifference A B ↔ c ∈ A ∧ c ∉ B)
      ∧ (A.Nodup → (kanjiDifference A B).Nodup) :=
  ⟨mem_kanjiDifference A B c, nodup_kanjiDifference A B⟩

/-- C4, at a concrete input: the difference of `水山` and `木水火` has no repeated
character. -/
theorem kanjiDifference_spec_witness :
    (kanjiDifference ['水', '山'] ['木', '水', '火']).Nodup :=
  (kanjiDifference_spec ['水', '山'] ['木', '水', '火'] '山').2 (by decide)

/-! ## The frequency scorer -/

/-- C5: the numerator that `kanjiPercent subset original` accumulates is the sum, over
the characters `c` of `subset`, of the number of occurrences of `c` in `original`; the
result is the `float32` quotient of that sum by the rune count of `original`, times 100,
which for a non-empty `original` is the finite value `sum / length * 100`. -/
theorem kanjiPercent_spec (subset original : GoString) :
    kanjiPercentRes subset original = (subset.map (fun c => original.count c)).sum
      ∧ kanjiPercent subset original
          = (f32div (subset.map (fun c => original.count c)).sum original.length).times100
      ∧ (original ≠ [] →
          kanjiPercent subset original
            = F32.num ((((subset.map (fun c => original.count c)).sum : Nat) : ℚ)
                / ((original.length : Nat) : ℚ) * 100)) := by
  refine ⟨kanjiPercentRes_eq_sum subset original, ?_, ?_⟩
  · simp [kanjiPercent, kanjiPercentRes_eq_sum, runeCountInString]
  · intro h
    rw [kanjiPercent_of_ne_nil subset original h, kanjiPercentRes_eq_sum]

/-- C5, at a concrete input: `木` occurs twice among the four characters of `木木水山`, so
the set `木` scores 50. -/
theorem kanjiPercent_spec_witness :
    kanjiPercent ['木'] ['木', '木', '水', '山'] = F32.num 50 := by
  have hsum : (['木'].map (fun c => ['木', '木', '水', '山'].count c)).sum = 2 := by decide
  have hlen : ['木', '木', '水', '山'].length = 4 := rfl
  rw [(kanjiPercent_spec ['木'] ['木', '木', '水', '山']).2.2 (by decide), hsum, hlen]
  norm_num

/-- C6: for a non-empty `text`, with `Known` and `Unknown` computed by the classifier
chain from `uniqueKanjiInString text`, the numerators of `kanjiPercent Known text` and
`kanjiPercent Unknown text` add up to the length of `text`, and the two percentages are
finite values whose sum is exactly 100. -/
theorem known_unknown_percent_sum (text learnerKnown curriculumAll : GoString)
    (h : text ≠ []) :
    kanjiPercentRes (classify (uniqueKanjiInString text) learnerKnown curriculumAll).KnownKanji
          text
        + kanjiPercentRes
            (classify (uniqueKanjiInString text) learnerKnown curriculumAll).UnknownKanji text
        = runeCountInString text
      ∧ ∃ p q : ℚ,
          kanjiPercent (classify (uniqueKanjiInString text) learnerKnown curriculumAll).KnownKanji
              text = F32.num p
            ∧ kanjiPercent
                (classify (uniqueKanjiInString text) learnerKnown curriculumAll).UnknownKanji
                text = F32.num q
            ∧ p + q = 100 := by
  have hsum := kanjiPercentRes_split (uniqueKanjiInString text) learnerKnown text
  rw [kanjiPercentRes_unique] at hsum
  have hlen : ((text.length : Nat) : ℚ) ≠ 0 := by
    have : text.length ≠ 0 := fun h0 => h (List.length_eq_zero.1 h0)
    exact_mod_cast this
  refine ⟨hsum, _, _, kanjiPercent_of_ne_nil _ text h, kanjiPercent_of_ne_nil _ text h, ?_⟩
  simp only [classify]
  rw [← add_mul, ← add_div]
  have hq : ((kanjiPercentRes (kanjiDifference (uniqueKanjiInString text)
        (kanjiDifference (uniqueKanjiInString text) learnerKnown)) text : Nat) : ℚ)
      + ((kanjiPercentRes (kanjiDifference (uniqueKanjiInString text) learnerKnown) text
        : Nat) : ℚ) = ((text.length : Nat) : ℚ) := by
    exact_mod_cast hsum
  rw [hq, div_self hlen]
  norm_num

/-- C6, at the scenario of the specification: the numerators of `Known` and `Unknown`
add up to the four characters of `木木水山`. -/
theorem known_unknown_percent_sum_witness :
    kanjiPercentRes (classify (uniqueKanjiInString ['木', '木', '水', '山']) ['木']
          ['木', '水', '火']).KnownKanji ['木', '木', '水', '山']
        + kanjiPercentRes (classify (uniqueKanjiInString ['木', '木', '水', '山']) ['木']
          ['木', '水', '火']).UnknownKanji ['木', '木', '水', '山']
        = runeCountInString ['木', '木', '水', '山'] :=
  (known_unknown_percent_sum ['木', '木', '水', '山'] ['木'] ['木', '水', '火']
    (by decide)).1

/-- C7: with the four sets computed by the classifier chain from
`uniqueKanjiInString text`, the numerator of `kanjiPercent UnknownInCurriculum text` plus
that of `kanjiPercent NotInCurriculum text` is that of `kanjiPercent Unknown text`, for
every `text`; and for a non-empty `text` the three percentages are finite values, the
first two adding up exactly to the third. -/
theorem curriculum_percent_sum (text learnerKnown curriculumAll : GoString) :
    kanjiPercentRes
          (classify (uniqueKanjiInString text) learnerKnown curriculumAll).UnknownKanjiInWK text
        + kanjiPercentRes
            (classify (uniqueKanjiInString text) learnerKnown curriculumAll).KanjiNotInWK text
        = kanjiPercentRes
            (classify (uniqueKanjiInString text) learnerKnown curriculumAll).UnknownKanji text
      ∧ (text ≠ [] → ∃ p q u : ℚ,
          kanjiPercent
              (classify (uniqueKanjiInString text) learnerKnown curriculumAll).UnknownKanjiInWK
              text = F32.num p
            ∧ kanjiPercent
                (classify (uniqueKanjiInString text) learnerKnown curriculumAll).KanjiNotInWK
                text = F32.num q
            ∧ kanjiPercent
                (classify (uniqueKanjiInString text) learnerKnown curriculumAll).UnknownKanji
                text = F32.num u
            ∧ p + q = u) := by
  have hsum := kanjiPercentRes_split
    (kanjiDifference (uniqueKanjiInString text) learnerKnown) curriculumAll text
  refine ⟨hsum, fun h => ⟨_, _, _, kanjiPercent_of_ne_nil _ text h,
    kanjiPercent_of_ne_nil _ text h, kanjiPercent_of_ne_nil _ text h, ?_⟩⟩
  simp only [classify]
  rw [← add_mul, ← add_div]
  congr 2
  exact_mod_cast hsum

/-- C7, at the scenario of the specification: the three percentages over `木木水山` are
finite, and those of `UnknownInCurriculum` and `NotInCurriculum` add up to that of
`Unknown`. -/
theorem curriculum_percent_sum_witness :
    ∃ p q u : ℚ,
      kanjiPercent (classify (uniqueKanjiInString ['木', '木', '水', '山']) ['木']
          ['木', '水', '火']).UnknownKanjiInWK ['木', '木', '水', '山'] = F32.num p
        ∧ kanjiPercent (classify (uniqueKanjiInString ['木', '木', '水', '山']) ['木']
          ['木', '水', '火']).KanjiNotInWK ['木', '木', '水', '山'] = F32.num q
        ∧ kanjiPercent (classify (uniqueKanjiInString ['木', '木', '水', '山']) ['木']
          ['木', '水', '火']).UnknownKanji ['木', '木', '水', '山'] = F32.num u
        ∧ p + q = u :=
  (curriculum_percent_sum ['木', '木', '水', '山'] ['木'] ['木', '水', '火']).2 (by decide)

/-- C8, the claim as stated fails: over an empty original sequence `kanjiPercent` does
not return 0 for the subset `木` but NaN, and the density of a text of zero characters is
NaN as well. -/
theorem kanjiPercent_empty_not_zero :
    kanjiPercent ['木'] [] ≠ F32.num 0
      ∧ kanjiPercent ['木'] [] = F32.nan
      ∧ kanjiPercentageInTexts [] 0 ≠ F32.num 0
      ∧ kanjiPercentageInTexts [] 0 = F32.nan := by
  decide

/-- C8, as amended: over an empty original sequence the numerator of `kanjiPercent` is 0
for every subset and the result is the NaN of the `float32` quotient `0 / 0`; the
density of a text of zero characters is that NaN too. -/
theorem kanjiPercent_empty_nan (subset : GoString) :
    kanjiPercentRes subset [] = 0
      ∧ kanjiPercent subset [] = F32.nan
      ∧ kanjiPercentageInTexts [] 0 = F32.nan := by
  have h0 : kanjiPercentRes subset [] = 0 := by
    rw [kanjiPercentRes_eq_sum]
    simp
  refine ⟨h0, ?_, by decide⟩
  simp [kanjiPercent, h0, f32div, runeCountInString, F32.times100]

/-! ## The deduplicator -/

/-- C9: `uniqueKanjiInString s` contains no character twice, and a character occurs in
it if and only if it occurs in `s`. -/
theorem uniqueKanjiInString_spec (s : GoString) (c : Char) :
    (uniqueKanjiInString s).Nodup ∧ (c ∈ uniqueKanjiInString s ↔ c ∈ s) := by
  rw [uniqueKanjiInString_eq]
  exact ⟨nodup_firstOccurrences s, mem_firstOccurrences s c⟩

/-- C10: `uniqueKanjiInString s` is a subsequence of `s`, and for two distinct characters
`a` and `b` of the result, `a` stands before `b` in the result exactly when the first
occurrence of `a` in `s` stands before the first occurrence of `b` in `s`. -/
theorem uniqueKanjiInString_first_seen_order (s : GoString) :
    (uniqueKanjiInString s).Sublist s
      ∧ ∀ a b : Char, a ∈ uniqueKanjiInString s → b ∈ uniqueKanjiInString s → a ≠ b →
          ((uniqueKanjiInString s).indexOf a < (uniqueKanjiInString s).indexOf b
            ↔ s.indexOf a < s.indexOf b) := by
  rw [uniqueKanjiInString_eq]
  exact ⟨sublist_firstOccurrences s, fun a b _ _ _ => indexOf_firstOccurrences_lt s a b⟩

/-- C10, at a concrete input: in `水木水山` the character `木` is first seen before `山`,
and it stands before `山` in the result. -/
theorem uniqueKanjiInString_first_seen_order_witness :
    ((uniqueKanjiInString ['水', '木', '水', '山']).indexOf '木'
        < (uniqueKanjiInString ['水', '木', '水', '山']).indexOf '山'
      ↔ ['水', '木', '水', '山'].indexOf '木' < ['水', '木', '水', '山'].indexOf '山') :=
  (uniqueKanjiInString_first_seen_order ['水', '木', '水', '山']).2 '木' '山'
    (by decide) (by decide) (by decide)

/-! ## The extractor as a filter -/

theorem scanFile_eq (acc : List Char × Nat) (fileData : List GoString) :
    scanFile acc fileData
      = (acc.1 ++ fileData.flatten.filter inKanjiRange,
          acc.2 + (fileData.map List.length).sum) := by
  unfold scanFile
  induction fileData generalizing acc with
  | nil => simp
  | cons str rest ih =>
    rw [List.foldl_cons, ih]
    simp only [scanLine_eq, runeCountInString, List.flatten_cons,
      List.filter_append, List.map_cons, List.sum_cons, List.append_assoc, Nat.add_assoc]

theorem readInputFiles_loop (acc : List Char × Nat) (files : List (List GoString)) :
    files.foldl scanFile acc
      = (acc.1 ++ files.flatten.flatten.filter inKanjiRange,
          acc.2 + (files.flatten.map List.length).sum) := by
  induction files generalizing acc with
  | nil => simp
  | cons fileData rest ih =>
    rw [List.foldl_cons, ih, scanFile_eq]
    simp only [List.flatten_cons, List.flatten_append,
      List.filter_append, List.map_append, List.sum_append, List.append_assoc, Nat.add_assoc]

theorem readInputFiles_eq (files : List (List GoString)) :
    readInputFiles files
      = (files.flatten.flatten.filter inKanjiRange, (files.flatten.map List.length).sum) := by
  unfold readInputFiles
  rw [readInputFiles_loop]
  simp

theorem regexpKanjiClass_of_inKanjiRange (c : Char) (h : inKanjiRange c = true) :
    regexpKanjiClass c = true := by
  simp only [inKanjiRange, regexpKanjiClass, Bool.and_eq_true, decide_eq_true_eq] at h ⊢
  omega

theorem firstOccurrences_of_nodup (t : List Char) (h : t.Nodup) : firstOccurrences t = t := by
  induction t with
  | nil => rfl
  | cons x xs ih =>
    have hx : x ∉ xs := (List.nodup_cons.1 h).1
    simp only [firstOccurrences, ih (List.nodup_cons.1 h).2]
    congr 1
    rw [List.filter_eq_self]
    intro c hc
    have : c ≠ x := fun e => hx (e ▸ hc)
    simpa using this

/-! ## Idempotence of the deduplicator -/

/-- C11: deduplication is idempotent, `uniqueKanjiInString (uniqueKanjiInString s)` is
`uniqueKanjiInString s`, and a sequence `t` with no repeated character is left as it is,
`uniqueKanjiInString t = t`. -/
theorem uniqueKanjiInString_idempotent (s t : GoString) :
    uniqueKanjiInString (uniqueKanjiInString s) = uniqueKanjiInString s
      ∧ (t.Nodup → uniqueKanjiInString t = t) := by
  refine ⟨?_, fun h => ?_⟩
  · rw [uniqueKanjiInString_eq (uniqueKanjiInString s), uniqueKanjiInString_eq s]
    exact firstOccurrences_of_nodup _ (nodup_firstOccurrences s)
  · rw [uniqueKanjiInString_eq]
    exact firstOccurrences_of_nodup t h

/-- C11, at a concrete input: the duplicate-free sequence `木水山` is returned unchanged. -/
theorem uniqueKanjiInString_idempotent_witness :
    uniqueKanjiInString ['木', '水', '山'] = ['木', '水', '山'] :=
  (uniqueKanjiInString_idempotent ['木', '木', '水', '山'] ['木', '水', '山']).2 (by decide)

/-! ## The extractor -/

/-- C12: the count that `readInputFiles` returns is the sum of the character counts of
all lines, ideograph or not; the sequence it returns is the concatenated lines filtered
by the range test of the code, so it is a subsequence, in order of appearance, of the
concatenated lines, and each of its characters passes that test (hence lies in the block
U+4E00..U+9FAF); for no file at all, and for a file with no line, the result is the
empty sequence and the count 0. -/
theorem readInputFiles_spec (files : List (List GoString)) :
    (readInputFiles files).2 = (files.flatten.map runeCountInString).sum
      ∧ (readInputFiles files).1 = files.flatten.flatten.filter inKanjiRange
      ∧ (readInputFiles files).1.Sublist files.flatten.flatten
      ∧ (∀ c ∈ (readInputFiles files).1, inKanjiRange c = true ∧ regexpKanjiClass c = true)
      ∧ readInputFiles [] = ([], 0)
      ∧ readInputFiles [[]] = ([], 0) := by
  rw [readInputFiles_eq]
  refine ⟨rfl, rfl, List.filter_sublist _, ?_, rfl, rfl⟩
  intro c hc
  have h := (List.mem_filter.1 hc).2
  exact ⟨h, regexpKanjiClass_of_inKanjiRange c h⟩

/-- C13: extraction distributes over the concatenation of inputs: extracting from the
files `P` followed by the files `Q` yields the ideograph sequence of `P` followed by
that of `Q`, and the sum of the two counts. -/
theorem readInputFiles_append (P Q : List (List GoString)) :
    readInputFiles (P ++ Q)
      = ((readInputFiles P).1 ++ (readInputFiles Q).1,
          (readInputFiles P).2 + (readInputFiles Q).2) := by
  simp only [readInputFiles_eq, List.flatten_append, List.filter_append, List.map_append,
    List.sum_append]

/-! ## The worked scenario -/

/-- C14: with the curriculum line `木水火`, the learner-known string `木` and the text
line `木木水山`, the extractor returns the four ideographs `木木水山` (and the curriculum
`木水火`), `uniqueKanjiInString` gives `木水山`, the chain gives `Known = 木`,
`Unknown = 水山`, `UnknownInCurriculum = 水`, `NotInCurriculum = 山`, the numerators over
the text are 2, 2, 1 and 1 out of 4, and the percentages are 50, 50, 25 and 25. -/
theorem worked_scenario :
    readInputFiles [[['木', '木', '水', '山']]] = (['木', '木', '水', '山'], 4)
      ∧ (readInputFiles [[['木', '水', '火']]]).1 = ['木', '水', '火']
      ∧ uniqueKanjiInString (readInputFiles [[['木', '木', '水', '山']]]).1 = ['木', '水', '山']
      ∧ classify (uniqueKanjiInString (readInputFiles [[['木', '木', '水', '山']]]).1) ['木']
          (readInputFiles [[['木', '水', '火']]]).1
          = { UnknownKanji := ['水', '山'], KanjiNotInWK := ['山'],
              UnknownKanjiInWK := ['水'], KnownKanji := ['木'] }
      ∧ kanjiPercentRes ['木'] ['木', '木', '水', '山'] = 2
      ∧ kanjiPercentRes ['水', '山'] ['木', '木', '水', '山'] = 2
      ∧ kanjiPercentRes ['水'] ['木', '木', '水', '山'] = 1
      ∧ kanjiPercentRes ['山'] ['木', '木', '水', '山'] = 1
      ∧ runeCountInString ['木', '木', '水', '山'] = 4
      ∧ kanjiPercent ['木'] ['木', '木', '水', '山'] = F32.num 50
      ∧ kanjiPercent ['水', '山'] ['木', '木', '水', '山'] = F32.num 50
      ∧ kanjiPercent ['水'] ['木', '木', '水', '山'] = F32.num 25
      ∧ kanjiPercent ['山'] ['木', '木', '水', '山'] = F32.num 25 := by
  have hne : (['木', '木', '水', '山'] : GoString) ≠ [] := by decide
  have hlen : (['木', '木', '水', '山'] : GoString).length = 4 := rfl
  have h1 : kanjiPercentRes ['木'] ['木', '木', '水', '山'] = 2 := by decide
  have h2 : kanjiPercentRes ['水', '山'] ['木', '木', '水', '山'] = 2 := by decide
  have h3 : kanjiPercentRes ['水'] ['木', '木', '水', '山'] = 1 := by decide
  have h4 : kanjiPercentRes ['山'] ['木', '木', '水', '山'] = 1 := by decide
  refine ⟨by decide, by decide, by decide, by decide, h1, h2, h3, h4, rfl, ?_, ?_, ?_, ?_⟩
  · rw [kanjiPercent_of_ne_nil _ _ hne, h1, hlen]; norm_num
  · rw [kanjiPercent_of_ne_nil _ _ hne, h2, hlen]; norm_num
  · rw [kanjiPercent_of_ne_nil _ _ hne, h3, hlen]; norm_num
  · rw [kanjiPercent_of_ne_nil _ _ hne, h4, hlen]; norm_num

/-! ## A text without ideographs -/

/-- C15: for a non-empty text none of whose characters passes the range test (so for
every text with no character of the block U+4E00..U+9FAF), and for every learner-known
and curriculum string, the extracted sequence is empty, `textUnique` is empty, the four
classification sets are empty, and the density has numerator 0 and value 0. -/
theorem no_ideograph_text (files : List (List GoString)) (learnerKnown curriculumAll : GoString)
    (hnone : ∀ fileData ∈ files, ∀ str ∈ fileData, ∀ c ∈ str, inKanjiRange c = false)
    (hne : ∃ fileData ∈ files, ∃ str ∈ fileData, str ≠ []) :
    (readInputFiles files).1 = []
      ∧ uniqueKanjiInString (readInputFiles files).1 = []
      ∧ classify (uniqueKanjiInString (readInputFiles files).1) learnerKnown curriculumAll
          = { UnknownKanji := [], KanjiNotInWK := [], UnknownKanjiInWK := [], KnownKanji := [] }
      ∧ runeCountInString (readInputFiles files).1 = 0
      ∧ 0 < (readInputFiles files).2
      ∧ kanjiPercentageInTexts (readInputFiles files).1 (readInputFiles files).2
          = F32.num 0 := by
  have hres : (readInputFiles files).1 = [] := by
    rw [readInputFiles_eq]
    simp only [List.filter_eq_nil_iff, List.mem_flatten]
    rintro c ⟨str, ⟨fileData, hf, hs⟩, hc⟩
    simp [hnone fileData hf str hs c hc]
  have hpos : 0 < (readInputFiles files).2 := by
    obtain ⟨fileData, hf, str, hs, hstr⟩ := hne
    rw [readInputFiles_eq]
    have hmem : str ∈ files.flatten := List.mem_flatten.2 ⟨fileData, hf, hs⟩
    have hle : str.length ≤ (files.flatten.map List.length).sum :=
      List.single_le_sum (fun _ _ => Nat.zero_le _) _ (List.mem_map.2 ⟨str, hmem, rfl⟩)
    have : 0 < str.length := List.length_pos.2 hstr
    exact Nat.lt_of_lt_of_le this hle
  have hn0 : (readInputFiles files).2 ≠ 0 := Nat.pos_iff_ne_zero.1 hpos
  refine ⟨hres, ?_, ?_, ?_, hpos, ?_⟩
  · rw [hres]; rfl
  · rw [hres]; rfl
  · rw [hres]; rfl
  · rw [hres]
    simp [kanjiPercentageInTexts, f32div, runeCountInString, hn0, F32.times100]

/-- C15, at a concrete input: the one-line text `ab` has no ideograph, and its density
is 0. -/
theorem no_ideograph_text_witness :
    kanjiPercentageInTexts (readInputFiles [[['a', 'b']]]).1 (readInputFiles [[['a', 'b']]]).2
      = F32.num 0 :=
  (no_ideograph_text [[['a', 'b']]] ['木'] ['木', '水', '火'] (by decide)
    ⟨[['a', 'b']], by decide, ['a', 'b'], by decide, by decide⟩).2.2.2.2.2

/-! ## The chain against the direct definitions -/

theorem unknown_eq_direct (textUnique learnerKnown : GoString) :
    kanjiDifference textUnique learnerKnown
      = textUnique.filter (fun c => !learnerKnown.contains c) := by
  rw [kanjiDifference_eq_filter]
  rfl

theorem known_eq_direct (textUnique learnerKnown : GoString) :
    kanjiDifference textUnique (kanjiDifference textUnique learnerKnown)
      = textUnique.filter (fun c => learnerKnown.contains c) := by
  rw [known_eq_filter]
  apply List.filter_congr
  intro c _
  simp [containsRune]

theorem notInWK_eq_direct (textUnique learnerKnown curriculumAll : GoString) :
    kanjiDifference (kanjiDifference textUnique learnerKnown) curriculumAll
      = textUnique.filter (fun c => !learnerKnown.contains c && !curriculumAll.contains c) := by
  rw [unknown_eq_direct textUnique learnerKnown, unknown_eq_direct, List.filter_filter]
  apply List.filter_congr
  intro c _
  exact Bool.and_comm _ _

theorem unknownInWK_eq_direct (textUnique learnerKnown curriculumAll : GoString) :
    kanjiDifference (kanjiDifference textUnique learnerKnown)
        (kanjiDifference (kanjiDifference textUnique learnerKnown) curriculumAll)
      = textUnique.filter (fun c => !learnerKnown.contains c && curriculumAll.contains c) := by
  rw [known_eq_direct, unknown_eq_direct, List.filter_filter]
  apply List.filter_congr
  intro c _
  exact Bool.and_comm _ _

theorem length_filter_add_length_filter_not (p : Char → Bool) (l : List Char) :
    (l.filter p).length + (l.filter (fun c => !p c)).length = l.length := by
  induction l with
  | nil => rfl
  | cons x xs ih =>
    by_cases hx : p x = true
    · simp [List.filter_cons, hx, ← ih]; omega
    · simp [List.filter_cons, hx, ← ih]; omega

theorem length_kanjiDifference_split (textUnique other : GoString) :
    (kanjiDifference textUnique (kanjiDifference textUnique other)).length
        + (kanjiDifference textUnique other).length = textUnique.length := by
  rw [known_eq_filter, kanjiDifference_eq_filter, Nat.add_comm]
  exact length_filter_add_length_filter_not (fun r => !containsRune other r) textUnique

/-- C16: the chain of four `kanjiDifference` calls computes the four sets of the direct
definitions (`classifyDirect`); `Known` and `Unknown` are the same for any two
curriculum strings; and a learner-known character outside the curriculum is in none of
`Unknown`, `UnknownInCurriculum` and `NotInCurriculum`, and is in `Known` exactly when
it is a character of `textUnique`. -/
theorem classify_eq_classifyDirect (textUnique learnerKnown curriculumAll : GoString) :
    classify textUnique learnerKnown curriculumAll
        = classifyDirect textUnique learnerKnown curriculumAll
      ∧ (∀ otherCurriculum : GoString,
          (classify textUnique learnerKnown otherCurriculum).KnownKanji
              = (classify textUnique learnerKnown curriculumAll).KnownKanji
            ∧ (classify textUnique learnerKnown otherCurriculum).UnknownKanji
              = (classify textUnique learnerKnown curriculumAll).UnknownKanji)
      ∧ (∀ c : Char, c ∈ learnerKnown → c ∉ curriculumAll →
          (c ∈ (classify textUnique learnerKnown curriculumAll).KnownKanji ↔ c ∈ textUnique)
            ∧ c ∉ (classify textUnique learnerKnown curriculumAll).UnknownKanji
            ∧ c ∉ (classify textUnique learnerKnown curriculumAll).UnknownKanjiInWK
            ∧ c ∉ (classify textUnique learnerKnown curriculumAll).KanjiNotInWK) := by
  refine ⟨?_, fun _ => ⟨rfl, rfl⟩, ?_⟩
  · simp only [classify, classifyDirect, Classification.mk.injEq]
    exact ⟨unknown_eq_direct _ _, notInWK_eq_direct _ _ _, unknownInWK_eq_direct _ _ _,
      known_eq_direct _ _⟩
  · intro c hk _
    simp only [classify, mem_kanjiDifference]
    tauto

/-- C16, at a concrete input: `山` is known to the learner and outside the curriculum
`木水火`; it is a character of the text `木水山`, so it is in `Known`. -/
theorem classify_eq_classifyDirect_witness :
    ('山' ∈ (classify ['木', '水', '山'] ['木', '山'] ['木', '水', '火']).KnownKanji
      ↔ '山' ∈ ['木', '水', '山']) :=
  ((classify_eq_classifyDirect ['木', '水', '山'] ['木', '山'] ['木', '水', '火']).2.2 '山'
    (by decide) (by decide)).1

/-! ## The counts of the report -/

/-- C17: the counts printed in the report add up: the character count of `Known` plus
that of `Unknown` is the character count of `textUnique`, and the character count of
`UnknownInCurriculum` plus that of `NotInCurriculum` is the character count of
`Unknown`. -/
theorem report_counts_add_up (textUnique learnerKnown curriculumAll : GoString) :
    runeCountInString (classify textUnique learnerKnown curriculumAll).KnownKanji
        + runeCountInString (classify textUnique learnerKnown curriculumAll).UnknownKanji
        = runeCountInString textUnique
      ∧ runeCountInString (classify textUnique learnerKnown curriculumAll).UnknownKanjiInWK
          + runeCountInString (classify textUnique learnerKnown curriculumAll).KanjiNotInWK
          = runeCountInString (classify textUnique learnerKnown curriculumAll).UnknownKanji :=
  ⟨length_kanjiDifference_split textUnique learnerKnown,
    length_kanjiDifference_split (kanjiDifference textUnique learnerKnown) curriculumAll⟩

/-! ## Bounds on the density and on the numerator -/

theorem length_readInputFiles_le (files : List (List GoString)) :
    (readInputFiles files).1.length ≤ (readInputFiles files).2 := by
  rw [readInputFiles_eq, ← List.length_flatten]
  exact List.length_filter_le _ _

theorem countP_contains_cons (a : Char) (rest original : List Char) (ha : a ∉ rest) :
    original.countP (fun c => (a :: rest).contains c)
      = original.count a + original.countP (fun c => rest.contains c) := by
  induction original with
  | nil => rfl
  | cons x xs ih =>
    rw [List.countP_cons, List.countP_cons, List.count_cons, ih]
    by_cases hxa : x = a
    · have hr : rest.contains a = false := by simpa using ha
      subst hxa
      simp only [List.contains_cons, beq_self_eq_true, Bool.true_or, if_true, hr,
        Bool.false_eq_true, if_false]
      omega
    · have h1 : (x == a) = false := by simpa using hxa
      simp only [List.contains_cons, h1, Bool.false_or, Bool.false_eq_true, if_false]
      omega

theorem kanjiPercentRes_eq_countP (subset original : GoString) (h : subset.Nodup) :
    kanjiPercentRes subset original = original.countP (fun c => subset.contains c) := by
  rw [kanjiPercentRes_eq_sum]
  induction subset with
  | nil => simp
  | cons a rest ih =>
    rw [countP_contains_cons a rest original (List.nodup_cons.1 h).1, List.map_cons,
      List.sum_cons, ih (List.nodup_cons.1 h).2]

/-- C18: the number of characters of the ideograph sequence that `readInputFiles`
returns is at most the total character count it returns, and whenever that count is not
0 the density is a finite value between 0 and 100. -/
theorem density_bounded (files : List (List GoString)) :
    runeCountInString (readInputFiles files).1 ≤ (readInputFiles files).2
      ∧ ((readInputFiles files).2 ≠ 0 →
          ∃ q : ℚ, kanjiPercentageInTexts (readInputFiles files).1 (readInputFiles files).2
              = F32.num q ∧ 0 ≤ q ∧ q ≤ 100) := by
  have hle := length_readInputFiles_le files
  refine ⟨hle, fun hn0 => ⟨(((readInputFiles files).1.length : Nat) : ℚ)
    / (((readInputFiles files).2 : Nat) : ℚ) * 100, ?_, ?_, ?_⟩⟩
  · simp only [kanjiPercentageInTexts, f32div, runeCountInString, hn0, if_false,
      F32.times100]
  · positivity
  · have hpos : (0 : ℚ) < (((readInputFiles files).2 : Nat) : ℚ) := by
      exact_mod_cast Nat.pos_of_ne_zero hn0
    have hq : (((readInputFiles files).1.length : Nat) : ℚ)
        ≤ (((readInputFiles files).2 : Nat) : ℚ) := by exact_mod_cast hle
    have h1 : (((readInputFiles files).1.length : Nat) : ℚ)
        / (((readInputFiles files).2 : Nat) : ℚ) ≤ 1 := (div_le_one hpos).2 hq
    linarith

/-- C18, at a concrete input: the line `木a` has one ideograph among two characters, and
the density is a finite value between 0 and 100. -/
theorem density_bounded_witness :
    ∃ q : ℚ, kanjiPercentageInTexts (readInputFiles [[['木', 'a']]]).1
        (readInputFiles [[['木', 'a']]]).2 = F32.num q ∧ 0 ≤ q ∧ q ≤ 100 :=
  (density_bounded [[['木', 'a']]]).2 (by decide)

/-- C19: for a `subset` with no repeated character the numerator of
`kanjiPercent subset original` is at most the length of `original`, with equality
exactly when every character of `original` occurs in `subset`; and for the subset `木木`,
which repeats a character, the numerator over `木` is 2 and exceeds the length 1. -/
theorem kanjiPercentRes_le_length (subset original : GoString) :
    (subset.Nodup →
        kanjiPercentRes subset original ≤ runeCountInString original
          ∧ (kanjiPercentRes subset original = runeCountInString original
              ↔ ∀ c ∈ original, c ∈ subset))
      ∧ (¬ (['木', '木'] : GoString).Nodup
          ∧ runeCountInString ['木'] < kanjiPercentRes ['木', '木'] ['木']) := by
  refine ⟨fun h => ?_, by decide, by decide⟩
  rw [kanjiPercentRes_eq_countP subset original h]
  refine ⟨List.countP_le_length _, ?_⟩
  simp [runeCountInString]

/-- C19, at a concrete input: the duplicate-free subset `木水山` holds every character of
`木木水山`, and its numerator is the full length of that text. -/
theorem kanjiPercentRes_le_length_witness :
    kanjiPercentRes ['木', '水', '山'] ['木', '木', '水', '山']
      = runeCountInString ['木', '木', '水', '山'] :=
  (((kanjiPercentRes_le_length ['木', '水', '山'] ['木', '木', '水', '山']).1
    (by decide)).2).2 (by decide)

end KanjiStats
